import Mathlib

/-!
Shallow embedding of the long-form TTS synthesis pipeline of
`inworld-ai/inworld-api-examples` (files `python/example_tts_long_input.py`
and `python/example_tts_long_input_compressed.py`), together with proofs
about the text chunker, the boundary finders, the bounded dispatcher's
index-aligned result collection, the retry loop, and the audio reassembler.

Modelling conventions:
* Python strings are `List Char`; byte strings are `List Nat`.
* Python floats (audio durations, backoff delays) are modelled as `ℚ`,
  making the arithmetic exact.
* The `while` loops of the source are embedded as fuel-structural
  recursions; the fuel supplied at the top level (the length of the text,
  or the retry bound) is provably sufficient because every iteration
  strictly advances (see the positivity lemmas below), so the embedding
  computes exactly the same traces as the source loops.
* Python's `\s` class and `str.strip()` are modelled on the ASCII
  whitespace characters (space, tab, newline, carriage return, vertical
  tab, form feed); the repository's inputs are ASCII text.
-/

namespace InworldTTS

/-- ASCII whitespace, the fragment of Python's `\s` / `str.strip()`
whitespace relevant here: space, `\t`, `\n`, `\r`, `\x0b`, `\x0c`. -/
def pyIsSpace (c : Char) : Bool :=
  c == ' ' || c == '\t' || c == '\n' || c == '\r' ||
  c == Char.ofNat 11 || c == Char.ofNat 12

/-- Python `str.strip()`: drop whitespace from both ends. -/
def pyStrip (s : List Char) : List Char :=
  ((s.dropWhile pyIsSpace).reverse.dropWhile pyIsSpace).reverse

/-- Sentence-terminator characters `[.!?]` of the regex in both files. -/
def isTerm (c : Char) : Bool := c == '.' || c == '!' || c == '?'

/-- The closing-quote class of the regex: ASCII double and single quote.
(The character classes written in both source files contain exactly the
two ASCII quote characters, each listed twice.) -/
def isQuote (c : Char) : Bool := c == Char.ofNat 34 || c == Char.ofNat 39

/-- Length of the maximal run of whitespace at the head of `t`
(the greedy `\s+` of the regex, at a given position). -/
def wsCount (t : List Char) : Nat := (t.takeWhile pyIsSpace).length

/-- Length of the match of `[.!?]["']?\s+|[.!?]["']?$` anchored at the
head of `t`, following Python `re` semantics: the first alternative is
tried first; inside it the optional quote is consumed greedily (with
backtracking) and `\s+` is greedy; the second alternative anchors at the
end of the string. Returns `none` when the pattern does not match here. -/
def matchLen (t : List Char) : Option Nat :=
  match t with
  | [] => none
  | c :: rest =>
    if isTerm c then
      let withQ : Option Nat :=
        match rest with
        | c1 :: rest2 =>
          if isQuote c1 && decide (0 < wsCount rest2) then
            some (2 + wsCount rest2)
          else none
        | [] => none
      let noQ : Option Nat :=
        if 0 < wsCount rest then some (1 + wsCount rest) else none
      let branch1 : Option Nat := withQ.orElse (fun _ => noQ)
      let branch2 : Option Nat :=
        match rest with
        | [] => some 1
        | [c1] => if isQuote c1 then some 2 else none
        | _ :: _ :: _ => none
      branch1.orElse (fun _ => branch2)
    else none

/-- One step of `re.finditer`: scan the suffix `t` (which sits at absolute
position `i` of the searched string) left to right; at the first position
where the pattern matches, emit `(start, end)` in absolute offsets and
resume after the match (matches are non-empty and non-overlapping).
`fuel` bounds the number of scanned positions; `fuel = t.length` is
always sufficient since every step consumes at least one character. -/
def finditerGo : Nat → List Char → Nat → List (Nat × Nat)
  | 0, _, _ => []
  | _, [], _ => []
  | fuel + 1, c :: rest, i =>
    match matchLen (c :: rest) with
    | some L => (i, i + L) :: finditerGo fuel ((c :: rest).drop L) (i + L)
    | none => finditerGo fuel rest (i + 1)

/-- All matches of the sentence-end pattern in `s`, as `(start, end)`
offset pairs, in order — the model of
`list(sentence_end_pattern.finditer(search_text))`. -/
def finditer (s : List Char) : List (Nat × Nat) :=
  finditerGo s.length s 0

/-- Model of Python `search_text.rfind(' ')`, as an `Option`:
the greatest index holding a space, or `none`. -/
def lastSpaceIdx? (s : List Char) : Option Nat :=
  match s.reverse.findIdx? (fun c => c == ' ') with
  | some j => some (s.length - 1 - j)
  | none => none

/-- The shared last-space fallback of both boundary searches:
`chunk_end = space_index + 1 if space_index > 0 else max_size`
(note the strict `> 0`: a lone space at index 0 is ignored). -/
def spaceFallback (s : List Char) (maxSize : Nat) : Nat :=
  match lastSpaceIdx? s with
  | some k => if 0 < k then k + 1 else maxSize
  | none => maxSize

/-- A chunk of text with its pre-trim offsets in the original document
(`TextChunk` dataclass, identical in both source files). -/
structure TextChunk where
  text : List Char
  start_char : Nat
  end_char : Nat
deriving DecidableEq, Inhabited, Repr

/-- The chunking loop shared by `chunk_text` of both files, parameterised
by the boundary search `cut` applied to the remaining text (each file
supplies its own) and the maximum chunk size.  Mirrors:
`while current_position < len(text)`: if the remaining text fits in
`maxSize`, strip it and (when non-empty) emit the final chunk; otherwise
cut at `cut remaining`, strip the slice, emit it when non-empty with its
pre-trim offsets, and advance the cursor by the raw cut length.
`fuel = text.length` is sufficient because every cut is ≥ 1. -/
def chunkGo (cut : List Char → Nat) (maxSize : Nat) :
    Nat → List Char → Nat → List TextChunk
  | 0, _, _ => []
  | fuel + 1, remaining, pos =>
    if remaining.length = 0 then []
    else if remaining.length ≤ maxSize then
      let ct := pyStrip remaining
      if ct.isEmpty then [] else [⟨ct, pos, pos + remaining.length⟩]
    else
      let ce := cut remaining
      let ct := pyStrip (remaining.take ce)
      let rest := chunkGo cut maxSize fuel (remaining.drop ce) (pos + ce)
      if ct.isEmpty then rest else ⟨ct, pos, pos + ce⟩ :: rest

namespace LongInput

/-- `MIN_CHUNK_SIZE` of `example_tts_long_input.py`. -/
def MIN_CHUNK_SIZE : Nat := 1000

/-- `MAX_CHUNK_SIZE` of `example_tts_long_input.py`. -/
def MAX_CHUNK_SIZE : Nat := 1900

/-- `SAMPLE_RATE` of `example_tts_long_input.py`. -/
def SAMPLE_RATE : Nat := 48000

/-- `BITS_PER_SAMPLE` of `example_tts_long_input.py`. -/
def BITS_PER_SAMPLE : Nat := 16

/-- `CHANNELS` of `example_tts_long_input.py`. -/
def CHANNELS : Nat := 1

/-- The sentence-first boundary search inlined in `chunk_text`
(`example_tts_long_input.py` lines 92–108), applied to
`search_text = remaining_text[:MAX_CHUNK_SIZE]`: take the end of the
first sentence-end match with end ≥ `MIN_CHUNK_SIZE`; otherwise the end
of the last match; otherwise the last-space fallback. -/
def sentenceCut (searchText : List Char) : Nat :=
  match ((finditer searchText).filter (fun m => decide (MIN_CHUNK_SIZE ≤ m.2))).head? with
  | some m => m.2
  | none =>
    match (finditer searchText).getLast? with
    | some m => m.2
    | none => spaceFallback searchText MAX_CHUNK_SIZE

/-- `chunk_text` of `example_tts_long_input.py` (lines 60–120). -/
def chunk_text (text : List Char) : List TextChunk :=
  chunkGo (fun remaining => sentenceCut (remaining.take MAX_CHUNK_SIZE))
    MAX_CHUNK_SIZE text.length text 0

end LongInput

namespace Compressed

/-- `MIN_CHUNK_SIZE` of `example_tts_long_input_compressed.py`. -/
def MIN_CHUNK_SIZE : Nat := 500

/-- `MAX_CHUNK_SIZE` of `example_tts_long_input_compressed.py`. -/
def MAX_CHUNK_SIZE : Nat := 1900

/-- `MAX_RETRIES` of `example_tts_long_input_compressed.py`. -/
def MAX_RETRIES : Nat := 3

/-- `RETRY_BASE_DELAY` of `example_tts_long_input_compressed.py`. -/
def RETRY_BASE_DELAY : ℚ := 1

/-- First index `i ≥ start` of `searchText` beginning an occurrence of
`"\n\n"` — the model of the paragraph-break loop of `find_break_point`
(the loop's skip branch is unreachable: `str.find` already starts at
`start`, and a found index is always `< max_pos`). -/
def findParaFrom (s : List Char) (start : Nat) : Option Nat :=
  (List.range s.length).find? (fun i =>
    decide (start ≤ i) && (s[i]? == some '\n')
      && (s[i + 1]? == some '\n'))

/-- First index `i ≥ start` of `searchText` holding `'\n'` — the model of
the line-break loop of `find_break_point`. -/
def findNlFrom (s : List Char) (start : Nat) : Option Nat :=
  (List.range s.length).find? (fun i =>
    decide (start ≤ i) && (s[i]? == some '\n'))

/-- `find_break_point` of `example_tts_long_input_compressed.py`
(lines 61–121): search `text[:max_pos]` for, in priority order,
a paragraph break at ≥ `min_pos` (cut just past it), a line break at
≥ `min_pos`, the first sentence-end match starting at ≥ `min_pos`,
the last sentence-end match anywhere (guarded by `last_sentence_end > 0`,
which holds whenever a match exists), and finally the last-space
fallback. -/
def find_break_point (text : List Char) (min_pos max_pos : Nat) : Nat :=
  match findParaFrom (text.take max_pos) min_pos with
  | some idx => idx + 2
  | none =>
    match findNlFrom (text.take max_pos) min_pos with
    | some idx => idx + 1
    | none =>
      match (finditer (text.take max_pos)).find? (fun m => decide (min_pos ≤ m.1)) with
      | some m => m.2
      | none =>
        match (finditer (text.take max_pos)).getLast? with
        | some m => if 0 < m.2 then m.2 else spaceFallback (text.take max_pos) max_pos
        | none => spaceFallback (text.take max_pos) max_pos

/-- `chunk_text` of `example_tts_long_input_compressed.py`
(lines 124–165). -/
def chunk_text (text : List Char) : List TextChunk :=
  chunkGo (fun remaining => find_break_point remaining MIN_CHUNK_SIZE MAX_CHUNK_SIZE)
    MAX_CHUNK_SIZE text.length text 0

/-- Outcome of one attempt of the HTTP call inside `synthesize_speech`:
either audio bytes, or a `requests.exceptions.RequestException` that may
or may not carry a response with a status code.  A network timeout is a
`RequestException` with no response (`hasResponse = false`). -/
inductive AttemptOutcome where
  | ok (audio : List Nat)
  | requestError (hasResponse : Bool) (statusCode : Nat)
deriving DecidableEq, Repr

/-- Observable trace of `synthesize_speech`: the returned audio (`none`
when the function raises), the number of attempts made, and the list of
back-off delays slept between consecutive attempts. -/
structure RetryTrace where
  result : Option (List Nat)
  attempts : Nat
  sleeps : List ℚ
deriving DecidableEq, Repr

/-- The retry loop of `synthesize_speech`
(`example_tts_long_input_compressed.py` lines 203–236):
`for attempt in range(MAX_RETRIES)`: on success return the audio; on a
`RequestException`, when it is a rate limit (a response with status 429)
and this is not the last attempt, sleep `RETRY_BASE_DELAY * 2**attempt`
and continue, otherwise re-raise.  `remaining` is the number of loop
iterations left (so `is_last_attempt` ⟺ `remaining = 1`, i.e. the
recursion sees `remaining = fuel + 1` with `fuel = 0`); the loop is
entered with `remaining = MAX_RETRIES`, `attempt = 0`.  Falling out of
the loop (`remaining = 0`) raises `RuntimeError`, i.e. also no result. -/
def retryGo (outcomes : Nat → AttemptOutcome) : Nat → Nat → RetryTrace
  | 0, _ => ⟨none, 0, []⟩
  | fuel + 1, attempt =>
    match outcomes attempt with
    | .ok audio => ⟨some audio, 1, []⟩
    | .requestError hasResponse statusCode =>
      let is_rate_limit := hasResponse && (statusCode == 429)
      let is_last_attempt := fuel == 0
      if is_rate_limit && !is_last_attempt then
        let delay := RETRY_BASE_DELAY * 2 ^ attempt
        let t := retryGo outcomes fuel (attempt + 1)
        ⟨t.result, t.attempts + 1, delay :: t.sleeps⟩
      else ⟨none, 1, []⟩

/-- `synthesize_speech` of `example_tts_long_input_compressed.py`,
abstracted over the outcome of each HTTP attempt. -/
def synthesize_speech (outcomes : Nat → AttemptOutcome) : RetryTrace :=
  retryGo outcomes MAX_RETRIES 0

/-- The result-collection loop of `synthesize_all_chunks`
(`example_tts_long_input_compressed.py` lines 245–276) and of `main` in
`example_tts_long_input.py` (lines 335–344): `audio_buffers` starts as
`[None] * len(chunks)`; `as_completed` yields the futures in completion
order `order`, and each completed future writes its audio into the slot
of its originating chunk index (`audio_buffers[index] = audio_data`).
`synth` is the per-chunk synthesis result. -/
def dispatchCollect (chunks : List TextChunk) (synth : TextChunk → List Nat)
    (order : List Nat) : List (Option (List Nat)) :=
  order.foldl
    (fun buffers idx => buffers.set idx (some (synth (chunks.getD idx default))))
    (List.replicate chunks.length none)

end Compressed

namespace LongInput

/-- `extract_raw_audio` of `example_tts_long_input.py` (lines 186–190):
skip the 44-byte WAV header when the buffer is longer than 44 bytes and
starts with `b'RIFF'` (bytes 82, 73, 70, 70). -/
def extract_raw_audio (audio_data : List Nat) : List Nat :=
  if 44 < audio_data.length && audio_data.take 4 == [82, 73, 70, 70] then
    audio_data.drop 44
  else audio_data

/-- `bytes_per_second` as computed inside `calculate_duration`:
`SAMPLE_RATE * (BITS_PER_SAMPLE // 8) * CHANNELS`. -/
def bytesPerSecond : Nat := SAMPLE_RATE * (BITS_PER_SAMPLE / 8) * CHANNELS

/-- `calculate_duration` of `example_tts_long_input.py` (lines 193–196),
with the float division modelled exactly in `ℚ`. -/
def calculate_duration (raw_audio : List Nat) : ℚ :=
  (raw_audio.length : ℚ) / (bytesPerSecond : ℚ)

/-- The duration the pipeline attributes to one result buffer:
header-stripped length over `bytes_per_second`. -/
def bufferDuration (buffer : List Nat) : ℚ :=
  calculate_duration (extract_raw_audio buffer)

/-- A splice point of the combined audio (`SplicePoint` dataclass).
`formatted_time`, a decimal string rendering of `timestamp`, is omitted
from the model; all other fields are kept. -/
structure SplicePoint where
  splice_index : Nat
  timestamp : ℚ
  chunk_start_char : Nat
  chunk_end_char : Nat
  text_preview : List Char
deriving DecidableEq, Repr

/-- The `SplicePoint` the loop of `combine_audio_buffers` builds at a
given index and running time: `splice_index = index`,
`timestamp = current_time`, plus `chunks[index]`'s offsets and a 50-char
text preview followed by `"..."`.  (`chunks[index]` is modelled with
`getD`; it is only reached with `index < chunks.length` when, as in the
source, the two lists have equal length.) -/
def spAt (chunks : List TextChunk) (index : Nat) (timestamp : ℚ) : SplicePoint :=
  { splice_index := index
    timestamp := timestamp
    chunk_start_char := (chunks.getD index default).start_char
    chunk_end_char := (chunks.getD index default).end_char
    text_preview := (chunks.getD index default).text.take 50 ++ "...".toList }

/-- The loop of `combine_audio_buffers` (lines 224–239): for each buffer,
strip the header and compute its duration; for every index > 0 emit a
`SplicePoint` carrying the running `current_time` and the fields of
`chunks[index]`; then advance `current_time` by the duration.  Returns
the stripped buffers, the splice points, and the final `current_time`. -/
def combineGo (chunks : List TextChunk) :
    List (List Nat) → Nat → ℚ → List (List Nat) × List SplicePoint × ℚ
  | [], _, current_time => ([], [], current_time)
  | buffer :: rest, index, current_time =>
    let raw_audio := extract_raw_audio buffer
    let duration := calculate_duration raw_audio
    let tail := combineGo chunks rest (index + 1) (current_time + duration)
    let sps :=
      if 0 < index then spAt chunks index current_time :: tail.2.1
      else tail.2.1
    (raw_audio :: tail.1, sps, tail.2.2)

/-- `combine_audio_buffers` of `example_tts_long_input.py`
(lines 206–242): run the loop from index 0 and time 0.0, and concatenate
the stripped buffers (`b''.join(raw_buffers)`). -/
def combine_audio_buffers (audio_buffers : List (List Nat))
    (chunks : List TextChunk) : List Nat × List SplicePoint × ℚ :=
  let r := combineGo chunks audio_buffers 0 0
  (r.1.flatten, r.2.1, r.2.2)

end LongInput

/-- A 1901-character document whose first `MAX_CHUNK_SIZE` characters are
all spaces: the first loop iteration's slice strips to the empty string
and is dropped. -/
def wsGapDoc : List Char := List.replicate 1900 ' ' ++ ['a']

/-- A 1900-character search window whose only space sits at index 0 and
which contains no sentence terminator. -/
def loneSpaceWin : List Char := ' ' :: List.replicate 1899 'a'

/-- A whitespace-only (but non-empty) document. -/
def spaceOnlyDoc : List Char := [' ']

namespace Compressed

/-- Attempt outcomes of a call that times out on every attempt: a
`RequestException` carrying no response (`e.response is None`), hence
in particular no 429 status. -/
def timeoutOutcomes : Nat → AttemptOutcome := fun _ => .requestError false 0

/-- Attempt outcomes of a call that is rate-limited (HTTP 429) on every
attempt. -/
def rateLimitedOutcomes : Nat → AttemptOutcome := fun _ => .requestError true 429

end Compressed

theorem wsCount_le (t : List Char) : wsCount t ≤ t.length :=
  (List.takeWhile_sublist _).length_le

theorem matchLen_bounds {t : List Char} {L : Nat} (h : matchLen t = some L) :
    1 ≤ L ∧ L ≤ t.length := by
  cases t with
  | nil => simp [matchLen] at h
  | cons c rest =>
    by_cases hc : isTerm c
    · have hq := wsCount_le rest
      cases rest with
      | nil =>
        simp only [matchLen, hc, if_true, Option.orElse] at h
        rw [show wsCount ([] : List Char) = 0 from rfl] at h
        norm_num at h
        simp only [List.length_cons, List.length_nil]
        omega
      | cons c1 rest2 =>
        have hq2 := wsCount_le rest2
        simp only [matchLen, hc, if_true, Option.orElse] at h
        by_cases h1 : (isQuote c1 && decide (0 < wsCount rest2)) = true
        · simp only [if_pos h1] at h
          simp only [Option.some.injEq] at h
          simp only [List.length_cons] at *
          omega
        · simp only [if_neg h1] at h
          by_cases h2 : 0 < wsCount (c1 :: rest2)
          · simp only [if_pos h2, Option.some.injEq] at h
            simp only [List.length_cons] at *
            omega
          · simp only [if_neg h2] at h
            cases rest2 with
            | nil =>
              by_cases h3 : isQuote c1 = true
              · simp only [h3, if_true, Option.some.injEq] at h
                simp
                omega
              · simp only [h3, if_false] at h
                exact absurd h (by simp)
            | cons c2 rest3 => exact absurd h (by simp)
    · simp [matchLen, hc] at h

theorem finditerGo_mem {fuel : Nat} {t : List Char} {i : Nat} {m : Nat × Nat}
    (h : m ∈ finditerGo fuel t i) :
    i ≤ m.1 ∧ m.1 < m.2 ∧ m.2 ≤ i + t.length := by
  induction fuel generalizing t i with
  | zero => simp [finditerGo] at h
  | succ fuel ih =>
    cases t with
    | nil => simp [finditerGo] at h
    | cons c rest =>
      simp only [finditerGo] at h
      cases hm : matchLen (c :: rest) with
      | some L =>
        obtain ⟨hL1, hL2⟩ := matchLen_bounds hm
        rw [hm] at h
        rcases List.mem_cons.mp h with h | h
        · subst h
          simp only [List.length_cons] at hL2 ⊢
          omega
        · obtain ⟨h1, h2, h3⟩ := ih h
          refine ⟨by omega, h2, ?_⟩
          rw [List.length_drop] at h3
          omega
      | none =>
        rw [hm] at h
        obtain ⟨h1, h2, h3⟩ := ih h
        simp only [List.length_cons]
        omega

theorem finditer_mem {s : List Char} {m : Nat × Nat} (h : m ∈ finditer s) :
    m.1 < m.2 ∧ m.2 ≤ s.length := by
  obtain ⟨_, h2, h3⟩ := @finditerGo_mem s.length s 0 m h
  exact ⟨h2, by omega⟩

theorem lastSpaceIdx?_lt {s : List Char} {k : Nat} (h : lastSpaceIdx? s = some k) :
    k < s.length := by
  unfold lastSpaceIdx? at h
  cases hf : s.reverse.findIdx? (fun c => c == ' ') with
  | none => rw [hf] at h; exact absurd h (by simp)
  | some j =>
    rw [hf] at h
    cases h
    have hne : s ≠ [] := by
      intro he
      subst he
      simp [List.findIdx?_nil] at hf
    have : 0 < s.length := List.length_pos.mpr hne
    omega

theorem spaceFallback_pos {s : List Char} {maxSize : Nat} (h : 0 < maxSize) :
    1 ≤ spaceFallback s maxSize := by
  unfold spaceFallback
  cases lastSpaceIdx? s with
  | none => simpa using h
  | some k =>
    by_cases hk : 0 < k
    · simp [hk]
    · simpa [hk] using h

theorem spaceFallback_le {s : List Char} {maxSize : Nat} (h : s.length ≤ maxSize) :
    spaceFallback s maxSize ≤ maxSize := by
  unfold spaceFallback
  cases hl : lastSpaceIdx? s with
  | none => simp
  | some k =>
    have := lastSpaceIdx?_lt hl
    by_cases hk : 0 < k
    · simp only [hk, if_true]
      omega
    · simp [hk]

theorem pyStrip_eq_nil {s : List Char} (h : pyStrip s = []) :
    ∀ c ∈ s, pyIsSpace c = true := by
  unfold pyStrip at h
  have h1 : (s.dropWhile pyIsSpace).reverse.dropWhile pyIsSpace = [] :=
    List.reverse_eq_nil_iff.mp h
  have h2 : ∀ c ∈ (s.dropWhile pyIsSpace).reverse, pyIsSpace c = true :=
    List.dropWhile_eq_nil_iff.mp h1
  intro c hc
  rw [← List.takeWhile_append_dropWhile pyIsSpace s] at hc
  rcases List.mem_append.mp hc with hc | hc
  · exact List.mem_takeWhile_imp hc
  · exact h2 c (List.mem_reverse.mpr hc)

theorem LongInput.sentenceCut_pos (s : List Char) : 1 ≤ sentenceCut s := by
  unfold sentenceCut
  cases hv : ((finditer s).filter (fun m => decide (MIN_CHUNK_SIZE ≤ m.2))).head? with
  | some m =>
    have hmf : m ∈ (finditer s).filter (fun m => decide (MIN_CHUNK_SIZE ≤ m.2)) :=
      List.mem_of_mem_head? (by simp [hv])
    have h1 := (finditer_mem (List.mem_of_mem_filter hmf)).1
    show 1 ≤ m.2
    omega
  | none =>
    cases hl : (finditer s).getLast? with
    | some m =>
      have h1 := (finditer_mem (List.mem_of_getLast?_eq_some hl)).1
      show 1 ≤ m.2
      omega
    | none =>
      show 1 ≤ spaceFallback s MAX_CHUNK_SIZE
      exact spaceFallback_pos (by norm_num [MAX_CHUNK_SIZE])

theorem LongInput.sentenceCut_le {s : List Char} (h : s.length ≤ MAX_CHUNK_SIZE) :
    sentenceCut s ≤ MAX_CHUNK_SIZE := by
  unfold sentenceCut
  cases hv : ((finditer s).filter (fun m => decide (MIN_CHUNK_SIZE ≤ m.2))).head? with
  | some m =>
    have hmf : m ∈ (finditer s).filter (fun m => decide (MIN_CHUNK_SIZE ≤ m.2)) :=
      List.mem_of_mem_head? (by simp [hv])
    have h1 := (finditer_mem (List.mem_of_mem_filter hmf)).2
    show m.2 ≤ MAX_CHUNK_SIZE
    omega
  | none =>
    cases hl : (finditer s).getLast? with
    | some m =>
      have h1 := (finditer_mem (List.mem_of_getLast?_eq_some hl)).2
      show m.2 ≤ MAX_CHUNK_SIZE
      omega
    | none =>
      show spaceFallback s MAX_CHUNK_SIZE ≤ MAX_CHUNK_SIZE
      exact spaceFallback_le h

theorem Compressed.findParaFrom_some {s : List Char} {start idx : Nat}
    (h : findParaFrom s start = some idx) : start ≤ idx ∧ idx + 2 ≤ s.length := by
  have hp := List.find?_some h
  simp only [Bool.and_eq_true, decide_eq_true_eq, beq_iff_eq] at hp
  obtain ⟨⟨h1, _⟩, h3⟩ := hp
  have := (List.getElem?_eq_some.mp h3).1
  exact ⟨h1, by omega⟩

theorem Compressed.findNlFrom_some {s : List Char} {start idx : Nat}
    (h : findNlFrom s start = some idx) : start ≤ idx ∧ idx + 1 ≤ s.length := by
  have hp := List.find?_some h
  simp only [Bool.and_eq_true, decide_eq_true_eq, beq_iff_eq] at hp
  obtain ⟨h1, h2⟩ := hp
  have := (List.getElem?_eq_some.mp h2).1
  exact ⟨h1, by omega⟩

theorem Compressed.find_break_point_pos (t : List Char) (min_pos : Nat)
    {max_pos : Nat} (h : 0 < max_pos) :
    1 ≤ find_break_point t min_pos max_pos := by
  unfold find_break_point
  cases h1 : findParaFrom (t.take max_pos) min_pos with
  | some idx =>
    show 1 ≤ idx + 2
    omega
  | none =>
    cases h2 : findNlFrom (t.take max_pos) min_pos with
    | some idx =>
      show 1 ≤ idx + 1
      omega
    | none =>
      cases h3 : (finditer (t.take max_pos)).find? (fun m => decide (min_pos ≤ m.1)) with
      | some m =>
        have hb := (finditer_mem (List.mem_of_find?_eq_some h3)).1
        show 1 ≤ m.2
        omega
      | none =>
        cases h4 : (finditer (t.take max_pos)).getLast? with
        | some m =>
          show 1 ≤ if 0 < m.2 then m.2 else spaceFallback (t.take max_pos) max_pos
          by_cases hm2 : 0 < m.2
          · simp only [hm2, if_true]
            omega
          · simpa [hm2] using spaceFallback_pos h
        | none =>
          show 1 ≤ spaceFallback (t.take max_pos) max_pos
          exact spaceFallback_pos h

theorem Compressed.find_break_point_le (t : List Char) (min_pos max_pos : Nat) :
    find_break_point t min_pos max_pos ≤ max_pos := by
  have hlen : (t.take max_pos).length ≤ max_pos := by
    simp [List.length_take]
  unfold find_break_point
  cases h1 : findParaFrom (t.take max_pos) min_pos with
  | some idx =>
    have hb := (findParaFrom_some h1).2
    show idx + 2 ≤ max_pos
    omega
  | none =>
    cases h2 : findNlFrom (t.take max_pos) min_pos with
    | some idx =>
      have hb := (findNlFrom_some h2).2
      show idx + 1 ≤ max_pos
      omega
    | none =>
      cases h3 : (finditer (t.take max_pos)).find? (fun m => decide (min_pos ≤ m.1)) with
      | some m =>
        have hb := (finditer_mem (List.mem_of_find?_eq_some h3)).2
        show m.2 ≤ max_pos
        omega
      | none =>
        cases h4 : (finditer (t.take max_pos)).getLast? with
        | some m =>
          have hb := (finditer_mem (List.mem_of_getLast?_eq_some h4)).2
          show (if 0 < m.2 then m.2 else spaceFallback (t.take max_pos) max_pos) ≤ max_pos
          by_cases hm2 : 0 < m.2
          · simp only [hm2, if_true]
            omega
          · simpa [hm2] using spaceFallback_le hlen
        | none =>
          show spaceFallback (t.take max_pos) max_pos ≤ max_pos
          exact spaceFallback_le hlen

theorem mem_of_some_getElem? {l : List α} {i : Nat} {a : α}
    (h : l[i]? = some a) : a ∈ l := by
  obtain ⟨hlt, he⟩ := List.getElem?_eq_some.mp h
  exact he ▸ List.getElem_mem hlt

theorem chunkGo_mem {cut : List Char → Nat} {maxSize fuel : Nat}
    {remaining : List Char} {pos : Nat} {c : TextChunk}
    (hcut1 : ∀ r : List Char, maxSize < r.length → 1 ≤ cut r)
    (hcut2 : ∀ r : List Char, maxSize < r.length → cut r ≤ maxSize)
    (hfuel : remaining.length ≤ fuel)
    (hc : c ∈ chunkGo cut maxSize fuel remaining pos) :
    pos ≤ c.start_char ∧ c.start_char < c.end_char ∧
    c.end_char ≤ pos + remaining.length ∧
    c.end_char - c.start_char ≤ maxSize ∧ c.text ≠ [] := by
  induction fuel generalizing remaining pos with
  | zero => simp [chunkGo] at hc
  | succ fuel ih =>
    by_cases h0 : remaining.length = 0
    · simp [chunkGo, h0] at hc
    · by_cases hle : remaining.length ≤ maxSize
      · simp only [chunkGo, h0, if_false, hle, if_true] at hc
        by_cases hs : (pyStrip remaining).isEmpty
        · simp [hs] at hc
        · rw [if_neg hs, List.mem_singleton] at hc
          subst hc
          refine ⟨le_refl _, by dsimp only; omega, le_refl _, by dsimp only; omega, ?_⟩
          simpa [List.isEmpty_iff] using hs
      · have hlt : maxSize < remaining.length := by omega
        have hce1 := hcut1 remaining hlt
        have hce2 := hcut2 remaining hlt
        have hfuel2 : (remaining.drop (cut remaining)).length ≤ fuel := by
          rw [List.length_drop]
          omega
        simp only [chunkGo, h0, if_false, hle, if_true] at hc
        by_cases hs : (pyStrip (remaining.take (cut remaining))).isEmpty
        · rw [if_pos hs] at hc
          obtain ⟨g1, g2, g3, g4, g5⟩ := ih hfuel2 hc
          rw [List.length_drop] at g3
          exact ⟨by omega, g2, by omega, g4, g5⟩
        · rw [if_neg hs, List.mem_cons] at hc
          rcases hc with hc | hc
          · subst hc
            refine ⟨le_refl _, by dsimp only; omega, by dsimp only; omega,
              by dsimp only; omega, ?_⟩
            simpa [List.isEmpty_iff] using hs
          · obtain ⟨g1, g2, g3, g4, g5⟩ := ih hfuel2 hc
            rw [List.length_drop] at g3
            exact ⟨by omega, g2, by omega, g4, g5⟩

theorem chunkGo_pairwise {cut : List Char → Nat} {maxSize fuel : Nat}
    {remaining : List Char} {pos : Nat}
    (hcut1 : ∀ r : List Char, maxSize < r.length → 1 ≤ cut r)
    (hcut2 : ∀ r : List Char, maxSize < r.length → cut r ≤ maxSize)
    (hfuel : remaining.length ≤ fuel) :
    List.Pairwise (fun a b => a.end_char ≤ b.start_char)
      (chunkGo cut maxSize fuel remaining pos) := by
  induction fuel generalizing remaining pos with
  | zero => simp [chunkGo]
  | succ fuel ih =>
    by_cases h0 : remaining.length = 0
    · simp [chunkGo, h0]
    · by_cases hle : remaining.length ≤ maxSize
      · simp only [chunkGo, h0, if_false, hle, if_true]
        by_cases hs : (pyStrip remaining).isEmpty <;> simp [hs]
      · have hlt : maxSize < remaining.length := by omega
        have hce1 := hcut1 remaining hlt
        have hfuel2 : (remaining.drop (cut remaining)).length ≤ fuel := by
          rw [List.length_drop]
          omega
        have hrest := @ih (remaining.drop (cut remaining))
          (pos + cut remaining) hfuel2
        simp only [chunkGo, h0, if_false, hle, if_true]
        by_cases hs : (pyStrip (remaining.take (cut remaining))).isEmpty
        · rw [if_pos hs]
          exact hrest
        · rw [if_neg hs]
          refine List.pairwise_cons.mpr ⟨?_, hrest⟩
          intro b hb
          exact (chunkGo_mem hcut1 hcut2 hfuel2 hb).1

theorem chunkGo_gap {cut : List Char → Nat} {maxSize fuel : Nat}
    {remaining : List Char} {pos : Nat}
    (hcut1 : ∀ r : List Char, maxSize < r.length → 1 ≤ cut r)
    (hcut2 : ∀ r : List Char, maxSize < r.length → cut r ≤ maxSize)
    (hfuel : remaining.length ≤ fuel) :
    ∀ i, pos ≤ i → i < pos + remaining.length →
    (∀ c ∈ chunkGo cut maxSize fuel remaining pos,
      i < c.start_char ∨ c.end_char ≤ i) →
    ∃ ch, remaining[i - pos]? = some ch ∧ pyIsSpace ch = true := by
  induction fuel generalizing remaining pos with
  | zero =>
    intro i hi1 hi2 _
    omega
  | succ fuel ih =>
    intro i hi1 hi2 hgap
    by_cases h0 : remaining.length = 0
    · omega
    · have hidx : i - pos < remaining.length := by omega
      by_cases hle : remaining.length ≤ maxSize
      · by_cases hs : (pyStrip remaining).isEmpty
        · have hall := pyStrip_eq_nil (List.isEmpty_iff.mp hs)
          refine ⟨remaining.get ⟨i - pos, hidx⟩, ?_, ?_⟩
          · simp [List.getElem?_eq_getElem hidx]
          · exact hall _ (List.get_mem _ _ hidx)
        · have hmem : (⟨pyStrip remaining, pos, pos + remaining.length⟩ : TextChunk) ∈
              chunkGo cut maxSize (fuel + 1) remaining pos := by
            simp [chunkGo, h0, hle, hs]
          have := hgap _ hmem
          simp only at this
          omega
      · have hlt : maxSize < remaining.length := by omega
        have hce1 := hcut1 remaining hlt
        have hce2 := hcut2 remaining hlt
        have hfuel2 : (remaining.drop (cut remaining)).length ≤ fuel := by
          rw [List.length_drop]
          omega
        by_cases hi3 : i < pos + cut remaining
        · by_cases hs : (pyStrip (remaining.take (cut remaining))).isEmpty
          · have hall := pyStrip_eq_nil (List.isEmpty_iff.mp hs)
            have hidx2 : i - pos < cut remaining := by omega
            have hg : (remaining.take (cut remaining))[i - pos]? = remaining[i - pos]? :=
              List.getElem?_take_of_lt hidx2
            refine ⟨remaining.get ⟨i - pos, hidx⟩, ?_, ?_⟩
            · simp [List.getElem?_eq_getElem hidx]
            · refine hall _ (@mem_of_some_getElem? _ _ (i - pos) _ ?_)
              rw [hg]
              simp [List.getElem?_eq_getElem hidx]
          · have hmem : (⟨pyStrip (remaining.take (cut remaining)), pos,
                pos + cut remaining⟩ : TextChunk) ∈
                chunkGo cut maxSize (fuel + 1) remaining pos := by
              simp [chunkGo, h0, hle, hs]
            have := hgap _ hmem
            simp only at this
            omega
        · have hsub : ∀ c ∈ chunkGo cut maxSize fuel
              (remaining.drop (cut remaining)) (pos + cut remaining),
              i < c.start_char ∨ c.end_char ≤ i := by
            intro c hcmem
            apply hgap
            by_cases hs : (pyStrip (remaining.take (cut remaining))).isEmpty
            · simpa [chunkGo, h0, hle, hs] using hcmem
            · simp [chunkGo, h0, hle, hs]
              exact Or.inr hcmem
          have hrec := ih hfuel2 i (by omega)
            (by rw [List.length_drop]; omega) hsub
          obtain ⟨ch, hch1, hch2⟩ := hrec
          refine ⟨ch, ?_, hch2⟩
          rw [List.getElem?_drop] at hch1
          rw [show cut remaining + (i - (pos + cut remaining)) = i - pos from by omega] at hch1
          exact hch1

theorem chunkGo_ne_nil {cut : List Char → Nat} {maxSize fuel : Nat}
    {remaining : List Char} {pos idx : Nat} {ch : Char}
    (hcut1 : ∀ r : List Char, maxSize < r.length → 1 ≤ cut r)
    (hcut2 : ∀ r : List Char, maxSize < r.length → cut r ≤ maxSize)
    (hfuel : remaining.length ≤ fuel)
    (hg : remaining[idx]? = some ch) (hw : pyIsSpace ch = false) :
    chunkGo cut maxSize fuel remaining pos ≠ [] := by
  have hidx := (List.getElem?_eq_some.mp hg).1
  intro hnil
  have hgap := chunkGo_gap hcut1 hcut2 hfuel (pos + idx) (Nat.le_add_right pos idx)
    (by omega) (by simp [hnil])
  obtain ⟨ch2, hch2, hw2⟩ := hgap
  rw [show pos + idx - pos = idx from by omega, hg] at hch2
  cases hch2
  rw [hw] at hw2
  exact Bool.false_ne_true hw2

theorem LongInput.cutFn_pos :
    ∀ r : List Char, MAX_CHUNK_SIZE < r.length →
      1 ≤ sentenceCut (r.take MAX_CHUNK_SIZE) :=
  fun _ _ => sentenceCut_pos _

theorem LongInput.cutFn_le :
    ∀ r : List Char, MAX_CHUNK_SIZE < r.length →
      sentenceCut (r.take MAX_CHUNK_SIZE) ≤ MAX_CHUNK_SIZE :=
  fun r _ => sentenceCut_le (by rw [List.length_take]; exact min_le_left _ _)

theorem Compressed.cutFnC_pos :
    ∀ r : List Char, MAX_CHUNK_SIZE < r.length →
      1 ≤ find_break_point r MIN_CHUNK_SIZE MAX_CHUNK_SIZE :=
  fun r _ => find_break_point_pos r MIN_CHUNK_SIZE (by norm_num [MAX_CHUNK_SIZE])

theorem Compressed.cutFnC_le :
    ∀ r : List Char, MAX_CHUNK_SIZE < r.length →
      find_break_point r MIN_CHUNK_SIZE MAX_CHUNK_SIZE ≤ MAX_CHUNK_SIZE :=
  fun r _ => find_break_point_le r MIN_CHUNK_SIZE MAX_CHUNK_SIZE

theorem LongInput.chunk_text_inv {text : List Char} {c : TextChunk}
    (hc : c ∈ chunk_text text) :
    c.start_char < c.end_char ∧ c.end_char ≤ text.length ∧
    c.end_char - c.start_char ≤ MAX_CHUNK_SIZE ∧ c.text ≠ [] := by
  have h := chunkGo_mem cutFn_pos cutFn_le (le_refl _) hc
  exact ⟨h.2.1, by omega, h.2.2.2.1, h.2.2.2.2⟩

theorem Compressed.chunk_textC_inv {text : List Char} {c : TextChunk}
    (hc : c ∈ chunk_text text) :
    c.start_char < c.end_char ∧ c.end_char ≤ text.length ∧
    c.end_char - c.start_char ≤ MAX_CHUNK_SIZE ∧ c.text ≠ [] := by
  have h := chunkGo_mem cutFnC_pos cutFnC_le (le_refl _) hc
  exact ⟨h.2.1, by omega, h.2.2.2.1, h.2.2.2.2⟩

theorem LongInput.chunk_text_pairwise (text : List Char) :
    List.Pairwise (fun a b => a.end_char ≤ b.start_char) (chunk_text text) :=
  chunkGo_pairwise cutFn_pos cutFn_le (le_refl _)

theorem Compressed.chunk_textC_pairwise (text : List Char) :
    List.Pairwise (fun a b => a.end_char ≤ b.start_char) (chunk_text text) :=
  chunkGo_pairwise cutFnC_pos cutFnC_le (le_refl _)

theorem LongInput.chunk_text_gap {text : List Char} {i : Nat}
    (hi : i < text.length)
    (hgap : ∀ c ∈ chunk_text text, i < c.start_char ∨ c.end_char ≤ i) :
    ∃ ch, text[i]? = some ch ∧ pyIsSpace ch = true := by
  have h := chunkGo_gap cutFn_pos cutFn_le (le_refl _) i (Nat.zero_le i)
    (by omega) hgap
  simpa using h

theorem Compressed.chunk_textC_gap {text : List Char} {i : Nat}
    (hi : i < text.length)
    (hgap : ∀ c ∈ chunk_text text, i < c.start_char ∨ c.end_char ≤ i) :
    ∃ ch, text[i]? = some ch ∧ pyIsSpace ch = true := by
  have h := chunkGo_gap cutFnC_pos cutFnC_le (le_refl _) i (Nat.zero_le i)
    (by omega) hgap
  simpa using h

theorem LongInput.chunk_text_ne_nil {text : List Char} {idx : Nat} {ch : Char}
    (hg : text[idx]? = some ch) (hw : pyIsSpace ch = false) :
    chunk_text text ≠ [] :=
  chunkGo_ne_nil cutFn_pos cutFn_le (le_refl _) hg hw

theorem Compressed.chunk_textC_ne_nil {text : List Char} {idx : Nat} {ch : Char}
    (hg : text[idx]? = some ch) (hw : pyIsSpace ch = false) :
    chunk_text text ≠ [] :=
  chunkGo_ne_nil cutFnC_pos cutFnC_le (le_refl _) hg hw

theorem LongInput.combineGo_total (chunks : List TextChunk)
    (bs : List (List Nat)) (index : Nat) (t : ℚ) :
    (combineGo chunks bs index t).2.2 = t + (bs.map bufferDuration).sum := by
  induction bs generalizing index t with
  | nil => simp [combineGo]
  | cons b rest ih =>
    simp only [combineGo, List.map_cons, List.sum_cons, bufferDuration]
    rw [ih]
    ring

theorem LongInput.combineGo_raws (chunks : List TextChunk)
    (bs : List (List Nat)) (index : Nat) (t : ℚ) :
    (combineGo chunks bs index t).1 = bs.map extract_raw_audio := by
  induction bs generalizing index t with
  | nil => simp [combineGo]
  | cons b rest ih =>
    simp only [combineGo, List.map_cons]
    rw [ih]

theorem LongInput.combineGo_splices (chunks : List TextChunk)
    (bs : List (List Nat)) :
    ∀ index t, 1 ≤ index →
    (combineGo chunks bs index t).2.1 =
      (List.range bs.length).map
        (fun k => spAt chunks (index + k)
          (t + ((bs.take k).map bufferDuration).sum)) := by
  induction bs with
  | nil =>
    intro index t _
    simp [combineGo]
  | cons b rest ih =>
    intro index t h
    simp only [combineGo, List.length_cons]
    rw [if_pos (by omega : 0 < index)]
    rw [List.range_succ_eq_map, List.map_cons, List.map_map]
    congr 1
    · simp [spAt]
    · rw [ih (index + 1) (t + calculate_duration (extract_raw_audio b)) (by omega)]
      apply List.map_congr_left
      intro k _
      simp only [Function.comp_apply, List.take_succ_cons, List.map_cons,
        List.sum_cons, bufferDuration]
      congr 1
      · omega
      · ring

theorem setFold_not_mem {α : Type} (f : Nat → α) {order : List Nat}
    {slots : List α} {i : Nat} (h : i ∉ order) :
    (order.foldl (fun buffers idx => buffers.set idx (f idx)) slots)[i]? =
      slots[i]? := by
  induction order generalizing slots with
  | nil => rfl
  | cons j rest ih =>
    have hj : i ≠ j := fun he => h (he ▸ List.mem_cons_self j rest)
    have hr : i ∉ rest := fun hm => h (List.mem_cons_of_mem j hm)
    simp only [List.foldl_cons]
    rw [ih hr]
    exact List.getElem?_set_ne (fun he => hj he.symm)

theorem setFold_get {α : Type} (f : Nat → α) {order : List Nat}
    {slots : List α} {i : Nat} (hmem : i ∈ order) (hlen : i < slots.length) :
    (order.foldl (fun buffers idx => buffers.set idx (f idx)) slots)[i]? =
      some (f i) := by
  induction order generalizing slots with
  | nil => simp at hmem
  | cons j rest ih =>
    simp only [List.foldl_cons]
    by_cases hr : i ∈ rest
    · exact ih hr (by rw [List.length_set]; exact hlen)
    · have hij : i = j := by
        rcases List.mem_cons.mp hmem with h | h
        · exact h
        · exact absurd h hr
      subst hij
      rw [setFold_not_mem f hr]
      exact List.getElem?_set_eq_of_lt (f i) hlen

theorem Compressed.retryGo_rateLimited (outcomes : Nat → AttemptOutcome)
    (h : ∀ k, outcomes k = .requestError true 429) :
    ∀ fuel attempt, 1 ≤ fuel →
    retryGo outcomes fuel attempt =
      ⟨none, fuel,
        (List.range (fuel - 1)).map
          (fun j => RETRY_BASE_DELAY * 2 ^ (attempt + j))⟩ := by
  intro fuel
  induction fuel with
  | zero => intro _ h1; omega
  | succ fuel ih =>
    intro attempt _
    simp only [retryGo, h attempt]
    by_cases hf : fuel = 0
    · subst hf
      simp [retryGo]
    · have h1 : 1 ≤ fuel := by omega
      have hcond : ((true && (429 == 429 : Bool)) && !(fuel == 0)) = true := by
        simp [hf]
      rw [if_pos hcond, ih (attempt + 1) h1]
      simp only [RetryTrace.mk.injEq, true_and]
      rw [show fuel + 1 - 1 = (fuel - 1) + 1 from by omega, List.range_succ_eq_map,
        List.map_cons, List.map_map]
      congr 1
      apply List.map_congr_left
      intro j _
      simp only [Function.comp_apply]
      rw [show attempt + 1 + j = attempt + (j + 1) from by omega]

theorem finditerGo_eq_nil {t : List Char} (h : ∀ c ∈ t, isTerm c = false) :
    ∀ fuel i, finditerGo fuel t i = [] := by
  induction t with
  | nil =>
    intro fuel i
    cases fuel <;> rfl
  | cons c rest ih =>
    intro fuel i
    cases fuel with
    | zero => rfl
    | succ fuel =>
      have hm : matchLen (c :: rest) = none := by
        simp [matchLen, h c (List.mem_cons_self c rest)]
      simp only [finditerGo, hm]
      exact ih (fun x hx => h x (List.mem_cons_of_mem _ hx)) fuel (i + 1)

theorem finditer_eq_nil {s : List Char} (h : ∀ c ∈ s, isTerm c = false) :
    finditer s = [] :=
  finditerGo_eq_nil h s.length 0

theorem pyStrip_all_space {s : List Char} (h : ∀ c ∈ s, pyIsSpace c = true) :
    pyStrip s = [] := by
  unfold pyStrip
  rw [List.dropWhile_eq_nil_iff.mpr h]
  rfl

theorem findIdx?_spaces_after {l : List Char} (h : ∀ c ∈ l, (c == ' ') = false) :
    ∀ i, (l ++ [' ']).findIdx? (fun c => c == ' ') i = some (i + l.length) := by
  induction l with
  | nil => intro i; rfl
  | cons c rest ih =>
    intro i
    have hc := h c (List.mem_cons_self c rest)
    rw [List.cons_append, List.findIdx?_cons, hc]
    rw [if_neg Bool.false_ne_true]
    rw [ih (fun x hx => h x (List.mem_cons_of_mem _ hx)) (i + 1)]
    rw [List.length_cons]
    congr 1
    omega

theorem take_replicate_append (n : Nat) (x : α) (t : List α) :
    (List.replicate n x ++ t).take n = List.replicate n x := by
  induction n with
  | zero => rfl
  | succ n ih => simp [List.replicate_succ, ih]

theorem drop_replicate_append (n : Nat) (x : α) (t : List α) :
    (List.replicate n x ++ t).drop n = t := by
  induction n with
  | zero => rfl
  | succ n ih => simp [List.replicate_succ, ih]

theorem LongInput.sentenceCut_of_no_matches {s : List Char}
    (h : finditer s = []) :
    sentenceCut s = spaceFallback s MAX_CHUNK_SIZE := by
  unfold sentenceCut
  rw [h]
  rfl

theorem lastSpaceIdx?_loneSpaceWin : lastSpaceIdx? loneSpaceWin = some 0 := by
  unfold lastSpaceIdx? loneSpaceWin
  rw [List.reverse_cons, List.reverse_replicate]
  rw [findIdx?_spaces_after (by
    intro c hc
    have := List.eq_of_mem_replicate hc
    subst this
    decide) 0]
  show some ((' ' :: List.replicate 1899 'a').length - 1 - (0 + (List.replicate 1899 'a').length)) = some 0
  rw [List.length_cons, List.length_replicate]

theorem LongInput.sentenceCut_spaces :
    sentenceCut (List.replicate 1900 ' ') = 1900 := by
  have hf : finditer (List.replicate 1900 ' ') = [] := finditer_eq_nil (by
    intro c hc
    have := List.eq_of_mem_replicate hc
    subst this
    decide)
  rw [sentenceCut_of_no_matches hf]
  unfold spaceFallback lastSpaceIdx?
  rw [List.reverse_replicate]
  rw [show List.replicate 1900 (' ' : Char) = ' ' :: List.replicate 1899 ' ' from rfl]
  rw [List.findIdx?_cons]
  rw [if_pos (by rfl : ((' ' : Char) == ' ') = true)]
  show (if 0 < (' ' :: List.replicate 1899 (' ' : Char)).length - 1 - 0 then
    ((' ' :: List.replicate 1899 (' ' : Char)).length - 1 - 0) + 1 else MAX_CHUNK_SIZE) = 1900
  rw [List.length_cons, List.length_replicate]
  norm_num

theorem wsGapDoc_take : wsGapDoc.take 1900 = List.replicate 1900 ' ' := by
  unfold wsGapDoc
  exact take_replicate_append 1900 ' ' ['a']

theorem wsGapDoc_drop : wsGapDoc.drop 1900 = ['a'] := by
  unfold wsGapDoc
  exact drop_replicate_append 1900 ' ' ['a']

theorem chunkGo_succ_eq (cut : List Char → Nat) (maxSize fuel : Nat)
    (remaining : List Char) (pos : Nat) :
    chunkGo cut maxSize (fuel + 1) remaining pos =
      if remaining.length = 0 then []
      else if remaining.length ≤ maxSize then
        if (pyStrip remaining).isEmpty then []
        else [⟨pyStrip remaining, pos, pos + remaining.length⟩]
      else
        if (pyStrip (remaining.take (cut remaining))).isEmpty then
          chunkGo cut maxSize fuel (remaining.drop (cut remaining))
            (pos + cut remaining)
        else
          ⟨pyStrip (remaining.take (cut remaining)), pos, pos + cut remaining⟩ ::
            chunkGo cut maxSize fuel (remaining.drop (cut remaining))
              (pos + cut remaining) := rfl

theorem LongInput.chunk_text_wsGapDoc :
    chunk_text wsGapDoc = [⟨['a'], 1900, 1901⟩] := by
  have hlen : wsGapDoc.length = 1901 := by
    rw [wsGapDoc, List.length_append, List.length_replicate]
    rfl
  have hce : sentenceCut (wsGapDoc.take MAX_CHUNK_SIZE) = 1900 := by
    rw [show MAX_CHUNK_SIZE = 1900 from rfl, wsGapDoc_take]
    exact sentenceCut_spaces
  have hstrip : pyStrip (wsGapDoc.take 1900) = [] := by
    rw [wsGapDoc_take]
    exact pyStrip_all_space (by
      intro c hc
      have := List.eq_of_mem_replicate hc
      subst this
      decide)
  unfold chunk_text
  rw [hlen, show (1901 : Nat) = 1900 + 1 from rfl]
  rw [chunkGo_succ_eq]
  rw [if_neg (by rw [hlen]; norm_num),
    if_neg (by rw [hlen]; norm_num [MAX_CHUNK_SIZE])]
  rw [hce, hstrip, if_pos List.isEmpty_nil, wsGapDoc_drop]
  decide

/-- C1: for every input document, every `TextChunk` produced by
`chunk_text` (in both `example_tts_long_input.py` and
`example_tts_long_input_compressed.py`) has raw (pre-trim) length
`end_char - start_char` at most `MAX_CHUNK_SIZE`, and its trimmed `text`
field is a non-empty string. -/
theorem chunk_size_bounded_and_text_nonempty (text : List Char) :
    (∀ c ∈ LongInput.chunk_text text,
      c.end_char - c.start_char ≤ LongInput.MAX_CHUNK_SIZE ∧ c.text ≠ []) ∧
    (∀ c ∈ Compressed.chunk_text text,
      c.end_char - c.start_char ≤ Compressed.MAX_CHUNK_SIZE ∧ c.text ≠ []) := by
  constructor
  · intro c hc
    have h := LongInput.chunk_text_inv hc
    exact ⟨h.2.2.1, h.2.2.2⟩
  · intro c hc
    have h := Compressed.chunk_textC_inv hc
    exact ⟨h.2.2.1, h.2.2.2⟩

/-- Witness for C1 at the concrete document `"Hi"`. -/
theorem chunk_size_bounded_and_text_nonempty_witness :
    (⟨['H', 'i'], 0, 2⟩ : TextChunk) ∈ LongInput.chunk_text ['H', 'i'] ∧
    ((⟨['H', 'i'], 0, 2⟩ : TextChunk).end_char -
        (⟨['H', 'i'], 0, 2⟩ : TextChunk).start_char ≤ LongInput.MAX_CHUNK_SIZE ∧
      (⟨['H', 'i'], 0, 2⟩ : TextChunk).text ≠ []) :=
  ⟨by decide,
    (chunk_size_bounded_and_text_nonempty ['H', 'i']).1 _ (by decide)⟩

/-- C2: with a matching chunk list and at least one buffer,
`combine_audio_buffers` emits exactly `N - 1` splice points (none for
index 0); the splice point at list position `k` carries
`splice_index = k + 1` and `timestamp` equal to the sum of the computed
durations (header-stripped byte length over `bytes_per_second`) of
buffers `0 .. k`, and the returned `total_duration` is the sum over all
buffers. -/
theorem splice_points_count_and_timestamps (bufs : List (List Nat))
    (chs : List TextChunk) (hlen : chs.length = bufs.length)
    (hN : 1 ≤ bufs.length) :
    ((LongInput.combine_audio_buffers bufs chs).2.1).length = bufs.length - 1 ∧
    (∀ k, (hk : k < ((LongInput.combine_audio_buffers bufs chs).2.1).length) →
      (((LongInput.combine_audio_buffers bufs chs).2.1).get ⟨k, hk⟩).splice_index
          = k + 1 ∧
      (((LongInput.combine_audio_buffers bufs chs).2.1).get ⟨k, hk⟩).timestamp
          = ((bufs.take (k + 1)).map LongInput.bufferDuration).sum) ∧
    (LongInput.combine_audio_buffers bufs chs).2.2 =
      (bufs.map LongInput.bufferDuration).sum := by
  obtain ⟨b, rest, rfl⟩ : ∃ b rest, bufs = b :: rest := by
    cases bufs with
    | nil => simp at hN
    | cons b rest => exact ⟨b, rest, rfl⟩
  have hsp : (LongInput.combine_audio_buffers (b :: rest) chs).2.1 =
      (List.range rest.length).map
        (fun k => LongInput.spAt chs (1 + k)
          (LongInput.bufferDuration b +
            ((rest.take k).map LongInput.bufferDuration).sum)) := by
    show (LongInput.combineGo chs (b :: rest) 0 0).2.1 = _
    simp only [LongInput.combineGo]
    rw [if_neg (by omega : ¬ (0 : Nat) < 0)]
    rw [LongInput.combineGo_splices chs rest 1
      (0 + LongInput.calculate_duration (LongInput.extract_raw_audio b))
      (le_refl 1)]
    apply List.map_congr_left
    intro k _
    simp only [LongInput.bufferDuration]
    congr 1
    ring
  refine ⟨?_, ?_, ?_⟩
  · rw [hsp]
    simp
  · intro k hk
    have hk2 : k < rest.length := by
      rw [hsp] at hk
      simpa using hk
    have hget : ((LongInput.combine_audio_buffers (b :: rest) chs).2.1).get
        ⟨k, hk⟩ = LongInput.spAt chs (1 + k)
          (LongInput.bufferDuration b +
            ((rest.take k).map LongInput.bufferDuration).sum) := by
      simp [hsp, List.get_eq_getElem, List.getElem_map, List.getElem_range]
    rw [hget]
    constructor
    · show 1 + k = k + 1
      omega
    · show LongInput.bufferDuration b +
          ((rest.take k).map LongInput.bufferDuration).sum =
          (((b :: rest).take (k + 1)).map LongInput.bufferDuration).sum
      rw [List.take_succ_cons, List.map_cons, List.sum_cons]
  · show (LongInput.combineGo chs (b :: rest) 0 0).2.2 = _
    rw [LongInput.combineGo_total]
    ring

/-- Witness for C2 at two concrete one-byte and two-byte buffers. -/
theorem splice_points_count_and_timestamps_witness :
    ([⟨['a'], 0, 1⟩, ⟨['b'], 1, 2⟩] : List TextChunk).length =
        ([[1], [2, 3]] : List (List Nat)).length ∧
    1 ≤ ([[1], [2, 3]] : List (List Nat)).length ∧
    ((LongInput.combine_audio_buffers [[1], [2, 3]]
        [⟨['a'], 0, 1⟩, ⟨['b'], 1, 2⟩]).2.1).length =
      ([[1], [2, 3]] : List (List Nat)).length - 1 :=
  ⟨by decide, by decide,
    (splice_points_count_and_timestamps [[1], [2, 3]]
      [⟨['a'], 0, 1⟩, ⟨['b'], 1, 2⟩] (by decide) (by decide)).1⟩

/-- C3: for every chunk list, per-chunk synthesis function and completion
order (any permutation of the chunk indices), the collected result
sequence is index-aligned with the input chunks: slot `i` holds the audio
produced from chunk `i`, independent of completion order. -/
theorem dispatch_results_index_aligned (chunks : List TextChunk)
    (synth : TextChunk → List Nat) (order : List Nat)
    (hord : order.Perm (List.range chunks.length))
    (i : Nat) (hi : i < chunks.length) :
    (Compressed.dispatchCollect chunks synth order)[i]? =
      some (some (synth (chunks.getD i default))) := by
  have hmem : i ∈ order := hord.mem_iff.mpr (List.mem_range.mpr hi)
  unfold Compressed.dispatchCollect
  exact setFold_get (fun idx => some (synth (chunks.getD idx default))) hmem
    (by rw [List.length_replicate]; exact hi)

/-- Witness for C3: two chunks completing in reversed order `[1, 0]`. -/
theorem dispatch_results_index_aligned_witness :
    ([1, 0] : List Nat).Perm
        (List.range ([⟨['a'], 0, 1⟩, ⟨['b'], 1, 2⟩] : List TextChunk).length) ∧
    (0 : Nat) < ([⟨['a'], 0, 1⟩, ⟨['b'], 1, 2⟩] : List TextChunk).length ∧
    (Compressed.dispatchCollect [⟨['a'], 0, 1⟩, ⟨['b'], 1, 2⟩]
        (fun c => [c.end_char]) [1, 0])[0]? = some (some [1]) :=
  ⟨by decide, by decide, by
    have h := dispatch_results_index_aligned [⟨['a'], 0, 1⟩, ⟨['b'], 1, 2⟩]
      (fun c => [c.end_char]) [1, 0] (by decide) 0 (by decide)
    simpa using h⟩

/-- C4 counterexample: on a 1901-character document whose first 1900
characters are spaces (`wsGapDoc`), the whitespace-only first slice is
dropped, so `chunk_text` returns a single chunk `[1900, 1901)` — its
`start_char` is 1900, not 0, and the range `[0, 1900)` is covered by no
chunk.  This refutes the claim that the chunks are contiguous over
`[0, len(document))` with the first chunk starting at 0. -/
theorem chunk_ranges_gap_counterexample :
    LongInput.chunk_text wsGapDoc = [⟨['a'], 1900, 1901⟩] ∧
    wsGapDoc.length = 1901 ∧ (1900 : Nat) ≠ 0 := by
  refine ⟨LongInput.chunk_text_wsGapDoc, ?_, by decide⟩
  rw [wsGapDoc, List.length_append, List.length_replicate]
  rfl

/-- C4 (amended): for both files, the chunks returned by `chunk_text`
are in ascending, non-overlapping order (each chunk's `start_char` is at
least the previous chunk's `end_char`), with non-empty ranges contained
in `[0, len(document))`; slices that trim to the empty string are
dropped, so gaps may remain, but every document position covered by no
chunk holds a whitespace character. -/
theorem chunk_ranges_ordered_gaps_whitespace (text : List Char) :
    (List.Pairwise (fun a b => a.end_char ≤ b.start_char)
        (LongInput.chunk_text text) ∧
      (∀ c ∈ LongInput.chunk_text text,
        c.start_char < c.end_char ∧ c.end_char ≤ text.length) ∧
      (∀ i, i < text.length →
        (∀ c ∈ LongInput.chunk_text text, i < c.start_char ∨ c.end_char ≤ i) →
        ∃ ch, text[i]? = some ch ∧ pyIsSpace ch = true)) ∧
    (List.Pairwise (fun a b => a.end_char ≤ b.start_char)
        (Compressed.chunk_text text) ∧
      (∀ c ∈ Compressed.chunk_text text,
        c.start_char < c.end_char ∧ c.end_char ≤ text.length) ∧
      (∀ i, i < text.length →
        (∀ c ∈ Compressed.chunk_text text, i < c.start_char ∨ c.end_char ≤ i) →
        ∃ ch, text[i]? = some ch ∧ pyIsSpace ch = true)) := by
  refine ⟨⟨LongInput.chunk_text_pairwise text, ?_, ?_⟩,
    Compressed.chunk_textC_pairwise text, ?_, ?_⟩
  · intro c hc
    have h := LongInput.chunk_text_inv hc
    exact ⟨h.1, h.2.1⟩
  · intro i hi hgap
    exact LongInput.chunk_text_gap hi hgap
  · intro c hc
    have h := Compressed.chunk_textC_inv hc
    exact ⟨h.1, h.2.1⟩
  · intro i hi hgap
    exact Compressed.chunk_textC_gap hi hgap

/-- Witness for C4 (amended) at the whitespace-only document `" "`:
its single position is uncovered and holds a whitespace character. -/
theorem chunk_ranges_ordered_gaps_whitespace_witness :
    ((0 : Nat) < ([' '] : List Char).length ∧
      (∀ c ∈ LongInput.chunk_text [' '], 0 < c.start_char ∨ c.end_char ≤ 0)) ∧
    ∃ ch, ([' '] : List Char)[0]? = some ch ∧ pyIsSpace ch = true :=
  ⟨⟨by decide, by decide⟩,
    (chunk_ranges_ordered_gaps_whitespace [' ']).1.2.2 0 (by decide) (by decide)⟩

/-- C5 counterexample: on the 1900-character window `loneSpaceWin`
(a space followed by 1899 letters) there is no sentence-end match and the
last (only) space sits at index 0; the claim then requires the cut
"one past the last space", i.e. 1, but the code's `space_index > 0`
guard ignores a space at index 0 and cuts at `MAX_CHUNK_SIZE` = 1900. -/
theorem sentence_cut_lone_space_counterexample :
    finditer loneSpaceWin = [] ∧ lastSpaceIdx? loneSpaceWin = some 0 ∧
    LongInput.sentenceCut loneSpaceWin = 1900 ∧ (1900 : Nat) ≠ 0 + 1 := by
  have hf : finditer loneSpaceWin = [] := finditer_eq_nil (by
    intro c hc
    rcases List.mem_cons.mp hc with h | h
    · subst h; decide
    · have := List.eq_of_mem_replicate h
      subst this
      decide)
  refine ⟨hf, lastSpaceIdx?_loneSpaceWin, ?_, by decide⟩
  rw [LongInput.sentenceCut_of_no_matches hf]
  unfold spaceFallback
  rw [lastSpaceIdx?_loneSpaceWin]
  norm_num [LongInput.MAX_CHUNK_SIZE]

/-- C5 (amended): the sentence-first boundary search of
`example_tts_long_input.py` cuts at the end of the first sentence-end
match whose end is ≥ `MIN_CHUNK_SIZE`; otherwise at the end of the last
match anywhere in the window; if there is no match, one past the last
space character provided that space is at a positive index; and if there
is no space, or the only space is at index 0, exactly `MAX_CHUNK_SIZE`. -/
theorem sentence_first_cut_characterization (s : List Char) :
    (∀ m, ((finditer s).filter
        (fun m => decide (LongInput.MIN_CHUNK_SIZE ≤ m.2))).head? = some m →
      LongInput.sentenceCut s = m.2) ∧
    ((finditer s).filter
        (fun m => decide (LongInput.MIN_CHUNK_SIZE ≤ m.2)) = [] →
      ∀ m, (finditer s).getLast? = some m → LongInput.sentenceCut s = m.2) ∧
    (finditer s = [] → ∀ k, lastSpaceIdx? s = some k → 0 < k →
      LongInput.sentenceCut s = k + 1) ∧
    (finditer s = [] →
      (lastSpaceIdx? s = none ∨ lastSpaceIdx? s = some 0) →
      LongInput.sentenceCut s = LongInput.MAX_CHUNK_SIZE) := by
  refine ⟨?_, ?_, ?_, ?_⟩
  · intro m hm
    unfold LongInput.sentenceCut
    rw [hm]
  · intro hv m hm
    unfold LongInput.sentenceCut
    rw [hv, hm]
    rfl
  · intro hf k hk hkpos
    rw [LongInput.sentenceCut_of_no_matches hf]
    unfold spaceFallback
    rw [hk]
    show (if 0 < k then k + 1 else LongInput.MAX_CHUNK_SIZE) = k + 1
    rw [if_pos hkpos]
  · intro hf hsp
    rw [LongInput.sentenceCut_of_no_matches hf]
    unfold spaceFallback
    rcases hsp with h | h
    · rw [h]
    · rw [h]
      show (if 0 < 0 then 0 + 1 else LongInput.MAX_CHUNK_SIZE) =
        LongInput.MAX_CHUNK_SIZE
      norm_num

/-- Witness for C5 (amended) at the window `"a"`: no match, no space,
so the cut is exactly `MAX_CHUNK_SIZE`. -/
theorem sentence_first_cut_characterization_witness :
    finditer ['a'] = [] ∧ lastSpaceIdx? ['a'] = none ∧
    LongInput.sentenceCut ['a'] = LongInput.MAX_CHUNK_SIZE :=
  ⟨by decide, by decide,
    (sentence_first_cut_characterization ['a']).2.2.2 (by decide)
      (Or.inl (by decide))⟩

/-- C6 counterexample: the document `" "` is a non-empty string, yet
both versions of `chunk_text` return no chunks, because the single slice
trims to the empty string and is dropped. -/
theorem whitespace_doc_no_chunks_counterexample :
    spaceOnlyDoc ≠ [] ∧ LongInput.chunk_text spaceOnlyDoc = [] ∧
    Compressed.chunk_text spaceOnlyDoc = [] :=
  ⟨by decide, by decide, by decide⟩

/-- C6 (amended): for every document containing at least one
non-whitespace character, both versions of `chunk_text` return at least
one chunk. -/
theorem nonwhitespace_doc_yields_chunk (text : List Char)
    (h : ∃ (idx : Nat) (ch : Char), text[idx]? = some ch ∧ pyIsSpace ch = false) :
    LongInput.chunk_text text ≠ [] ∧ Compressed.chunk_text text ≠ [] := by
  obtain ⟨idx, ch, hg, hw⟩ := h
  exact ⟨LongInput.chunk_text_ne_nil hg hw, Compressed.chunk_textC_ne_nil hg hw⟩

/-- Witness for C6 (amended) at the document `"a"`. -/
theorem nonwhitespace_doc_yields_chunk_witness :
    (∃ (idx : Nat) (ch : Char),
      (['a'] : List Char)[idx]? = some ch ∧ pyIsSpace ch = false) ∧
    (LongInput.chunk_text ['a'] ≠ [] ∧ Compressed.chunk_text ['a'] ≠ []) :=
  ⟨⟨0, 'a', by decide, by decide⟩,
    nonwhitespace_doc_yields_chunk ['a'] ⟨0, 'a', by decide, by decide⟩⟩

/-- C7: if every attempt fails with a rate-limit error (a response with
HTTP status 429), `synthesize_speech` makes exactly `MAX_RETRIES` total
attempts, sleeping `RETRY_BASE_DELAY * 2 ^ attempt` between consecutive
attempts (attempt = 0, 1, ...), and then fails (returns no result,
re-raising the error). -/
theorem retry_exhaustion_trace (outcomes : Nat → Compressed.AttemptOutcome)
    (h : ∀ k, outcomes k = .requestError true 429) :
    (Compressed.synthesize_speech outcomes).result = none ∧
    (Compressed.synthesize_speech outcomes).attempts = Compressed.MAX_RETRIES ∧
    (Compressed.synthesize_speech outcomes).sleeps =
      (List.range (Compressed.MAX_RETRIES - 1)).map
        (fun attempt => Compressed.RETRY_BASE_DELAY * 2 ^ attempt) := by
  have he := Compressed.retryGo_rateLimited outcomes h Compressed.MAX_RETRIES 0
    (by norm_num [Compressed.MAX_RETRIES])
  unfold Compressed.synthesize_speech
  rw [he]
  refine ⟨rfl, rfl, ?_⟩
  apply List.map_congr_left
  intro j _
  rw [Nat.zero_add]

/-- Witness for C7: the always-rate-limited outcome sequence. -/
theorem retry_exhaustion_trace_witness :
    (∀ k, Compressed.rateLimitedOutcomes k = .requestError true 429) ∧
    (Compressed.synthesize_speech Compressed.rateLimitedOutcomes).attempts =
      Compressed.MAX_RETRIES :=
  ⟨fun _ => rfl, (retry_exhaustion_trace _ (fun _ => rfl)).2.1⟩

/-- C8 counterexample: a network timeout is a `RequestException` with no
response (`timeoutOutcomes`); `synthesize_speech` then makes exactly one
attempt, sleeps never, and fails — it is not retried like a rate-limit
(429) failure, for which `MAX_RETRIES` (> 1) attempts would be made. -/
theorem timeout_aborts_first_attempt_counterexample :
    (Compressed.synthesize_speech Compressed.timeoutOutcomes).attempts = 1 ∧
    (Compressed.synthesize_speech Compressed.timeoutOutcomes).sleeps = [] ∧
    (Compressed.synthesize_speech Compressed.timeoutOutcomes).result = none ∧
    1 < Compressed.MAX_RETRIES := by
  refine ⟨rfl, rfl, rfl, by norm_num [Compressed.MAX_RETRIES]⟩

/-- C8 (amended): only failures carrying an HTTP 429 response are
retried; any first-attempt `RequestException` that is not a rate limit —
in particular a network timeout, which carries no response — aborts the
call immediately after one attempt with no backoff sleep. -/
theorem non_rate_limit_error_fails_immediately
    (outcomes : Nat → Compressed.AttemptOutcome)
    (hasResponse : Bool) (statusCode : Nat)
    (h0 : outcomes 0 = .requestError hasResponse statusCode)
    (hnr : hasResponse = false ∨ statusCode ≠ 429) :
    Compressed.synthesize_speech outcomes = ⟨none, 1, []⟩ := by
  have hcond : (hasResponse && (statusCode == 429)) = false := by
    rcases hnr with h | h
    · simp [h]
    · simp [h]
  unfold Compressed.synthesize_speech
  rw [show Compressed.MAX_RETRIES = 2 + 1 from rfl]
  simp only [Compressed.retryGo, h0]
  simp [hcond]

/-- Witness for C8 (amended): the all-timeouts outcome sequence. -/
theorem non_rate_limit_error_fails_immediately_witness :
    Compressed.timeoutOutcomes 0 = .requestError false 0 ∧
    ((false : Bool) = false ∨ (0 : Nat) ≠ 429) ∧
    Compressed.synthesize_speech Compressed.timeoutOutcomes = ⟨none, 1, []⟩ :=
  ⟨rfl, Or.inl rfl,
    non_rate_limit_error_fails_immediately _ false 0 rfl (Or.inl rfl)⟩

/-- C9 counterexample: `combine_audio_buffers` accepts a one-byte buffer
(shorter than the 2-byte sample frame of 16-bit mono audio) and returns
a combined buffer with its fractional duration instead of raising an
error. -/
theorem short_buffer_combined_counterexample :
    LongInput.combine_audio_buffers [[0]] [⟨['a'], 0, 1⟩] =
      ([0], [], 1 / 96000) ∧
    ([0] : List Nat).length < LongInput.BITS_PER_SAMPLE / 8 * LongInput.CHANNELS := by
  have hex : LongInput.extract_raw_audio [0] = [0] := by decide
  have hdur : LongInput.bufferDuration [0] = 1 / 96000 := by
    rw [LongInput.bufferDuration, LongInput.calculate_duration, hex]
    norm_num [LongInput.bytesPerSecond, LongInput.SAMPLE_RATE,
      LongInput.BITS_PER_SAMPLE, LongInput.CHANNELS]
  refine ⟨?_, by decide⟩
  unfold LongInput.combine_audio_buffers
  simp only [Prod.mk.injEq]
  refine ⟨?_, ?_, ?_⟩
  · rw [LongInput.combineGo_raws]
    simp [hex]
  · rfl
  · rw [LongInput.combineGo_total]
    simp [hdur]

/-- C9 (amended): the reassembly step performs no validation:
`combine_audio_buffers` always returns, with the combined buffer being
the concatenation of the header-stripped buffers (also for buffers
shorter than one sample frame), and `bytes_per_second` is the fixed
positive constant `SAMPLE_RATE * (BITS_PER_SAMPLE // 8) * CHANNELS`
(= 96000), so a zero or negative divisor cannot occur. -/
theorem combine_total_no_validation (bufs : List (List Nat))
    (chs : List TextChunk) :
    (LongInput.combine_audio_buffers bufs chs).1 =
      (bufs.map LongInput.extract_raw_audio).flatten ∧
    0 < LongInput.bytesPerSecond ∧ LongInput.bytesPerSecond = 96000 := by
  refine ⟨?_, by norm_num [LongInput.bytesPerSecond, LongInput.SAMPLE_RATE,
    LongInput.BITS_PER_SAMPLE, LongInput.CHANNELS], by norm_num
    [LongInput.bytesPerSecond, LongInput.SAMPLE_RATE,
    LongInput.BITS_PER_SAMPLE, LongInput.CHANNELS]⟩
  show (LongInput.combineGo chs bufs 0 0).1.flatten = _
  rw [LongInput.combineGo_raws]

/-- C10: every branch of both boundary searches returns a strictly
positive cut offset — the first sentence-end match (end ≥ 1), the last
match, paragraph or line breaks (offset past the break), the last-space
fallback (index + 1) and the `MAX_CHUNK_SIZE` fallback — so
`current_position` strictly increases in every iteration of `chunk_text`
and the loop terminates (correspondingly, the fuel `text.length` given
to the embedded loop is sufficient). -/
theorem cut_offsets_always_positive :
    (∀ s : List Char, 1 ≤ LongInput.sentenceCut s) ∧
    (∀ (t : List Char) (min_pos max_pos : Nat), 0 < max_pos →
      1 ≤ Compressed.find_break_point t min_pos max_pos) :=
  ⟨LongInput.sentenceCut_pos, fun t min_pos _ h =>
    Compressed.find_break_point_pos t min_pos h⟩

/-- Witness for C10 at the empty window and the real configuration
constants. -/
theorem cut_offsets_always_positive_witness :
    (0 : Nat) < 1900 ∧ 1 ≤ Compressed.find_break_point [] 500 1900 ∧
    1 ≤ LongInput.sentenceCut [] :=
  ⟨by decide, cut_offsets_always_positive.2 [] 500 1900 (by decide),
    cut_offsets_always_positive.1 []⟩

end InworldTTS
